import Mathlib

/-!
Verification of the `exhash` verified line-addressed text editor.

The repository ships a thin Python wrapper (`exhash/__init__.py`, giving
`EditResult` with `text`, `view` and `repr`) and a test suite; the core module
`exhash/exhash.py` (hasher, address parser, command parser, buffer, evaluator,
result builder) is not part of the snapshot, so the core is modelled here
faithfully from the specification document, and the wrapper is embedded from
its Python source.
-/

namespace Exhash

/-- Lowercase hexadecimal digit character for a value below 16. -/
def hexDigit (n : Nat) : Char :=
  if n < 10 then Char.ofNat (48 + n) else Char.ofNat (87 + n)

/-- Modelled from the spec: the core module is missing from the snapshot.
`line_hash` is specified only as a deterministic 4-lowercase-hex digest of the
line's content, stable across invocations; any uniform 16-bit hash suffices.
We realise it as a 16-bit polynomial hash of the line's characters. -/
def line_hash (s : String) : String :=
  let h := s.data.foldl (fun acc c => (acc * 31 + c.toNat) % 65536) 5381
  String.mk [hexDigit (h / 4096 % 16), hexDigit (h / 256 % 16),
             hexDigit (h / 16 % 16), hexDigit (h % 16)]

/-- Modelled from the spec: `lnhash(lineno, line)` concatenates the decimal
line number, a bar, the line's hash, and a closing bar. -/
def lnhash (n : Nat) (line : String) : String :=
  toString n ++ "|" ++ line_hash line ++ "|"

/-- Split a character list on newline characters; `acc` holds the (reversed)
characters of the chunk currently being read. -/
def splitNLAux : List Char → List Char → List String
  | [], acc => [String.mk acc.reverse]
  | c :: rest, acc =>
    if c = '\n' then String.mk acc.reverse :: splitNLAux rest []
    else splitNLAux rest (c :: acc)

/-- Split a string on newline characters (Python `str.split`, which keeps
interior and trailing empty chunks). -/
def splitNL (t : String) : List String := splitNLAux t.data []

/-- Modelled from the spec: input text is split on newlines; a trailing
newline yields an exclusively-empty trailing element that is discarded, and
empty input yields zero lines. -/
def splitText (t : String) : List String :=
  match t.data.getLast? with
  | none => []
  | some c => if c = '\n' then splitNL (String.mk t.data.dropLast) else splitNL t

/-- Join a list of strings with newlines (Python `"\n".join`). -/
def joinNL : List String → String
  | [] => ""
  | [s] => s
  | s :: r :: rest => s ++ "\n" ++ joinNL (r :: rest)

/-- The input text minus one trailing newline if present (the round-trip image
of `text()` described by the spec). -/
def stripNL (t : String) : String :=
  match t.data.getLast? with
  | none => t
  | some c => if c = '\n' then String.mk t.data.dropLast else t

/-- Map with an explicit 1-based (or arbitrary-origin) running index. -/
def mapFrom (f : Nat → α → β) : Nat → List α → List β
  | _, [] => []
  | i, a :: as => f i a :: mapFrom f (i + 1) as

/-- Modelled from the spec: `lnhashview(text)` splits the text like `exhash`
and formats each line as its address followed by two spaces and the line. -/
def lnhashview (t : String) : List String :=
  mapFrom (fun i l => lnhash i l ++ "  " ++ l) 1 (splitText t)

/-- Modelled from the spec: one line of the working buffer, carrying its
content, its original 1-based line number (`none` for NEW lines produced by a
command), and whether a command modified or produced it. -/
structure LineRec where
  content : String
  origin : Option Nat
  touched : Bool
deriving DecidableEq, Repr

/-- Modelled from the spec: the working document, an ordered sequence of lines
plus the set of original line numbers that have been removed. -/
structure Buffer where
  recs : List LineRec
  deleted : List Nat
deriving DecidableEq, Repr

/-- Modelled from the spec: the final record assembled by the result builder. -/
structure EdResult where
  lines : List String
  hashes : List String
  modified : List Nat
  deleted : List Nat
deriving DecidableEq, Repr

/-- Insert a number into an ascending list, keeping it ascending. -/
def insertSorted (x : Nat) : List Nat → List Nat
  | [] => [x]
  | y :: ys => if x ≤ y then x :: y :: ys else y :: insertSorted x ys

/-- Sort a list of numbers ascending (insertion sort). -/
def sortNat (l : List Nat) : List Nat := l.foldr insertSorted []

/-- Modelled from the spec: after the last command the result builder emits the
final lines, one recomputed `lnhash` per line, the ascending current line
numbers of touched lines, and the ascending original line numbers deleted. -/
def buildResult (b : Buffer) : EdResult :=
  let lines := b.recs.map (·.content)
  { lines := lines
    hashes := mapFrom (fun i l => lnhash i l) 1 lines
    modified := (mapFrom (fun i r => (i, r.touched)) 1 b.recs).filterMap
      (fun p => if p.2 then some p.1 else none)
    deleted := sortNat b.deleted }

/-- A parsed address: 1-based line number plus the expected content hash. -/
structure Addr where
  lineno : Nat
  hash : String
deriving DecidableEq, Repr

/-- The sentinel address is literally `0|0000|`. -/
def Addr.isSentinel (a : Addr) : Bool := a.lineno == 0 && a.hash == "0000"

def isDigitCh (c : Char) : Bool := '0' ≤ c && c ≤ '9'

def isHexCh (c : Char) : Bool := isDigitCh c || ('a' ≤ c && c ≤ 'f')

/-- Take the maximal run of leading decimal digits. -/
def takeDigits : List Char → (List Char × List Char)
  | [] => ([], [])
  | c :: rest =>
    if isDigitCh c then
      let p := takeDigits rest
      (c :: p.1, p.2)
    else ([], c :: rest)

def digitsToNat (ds : List Char) : Nat :=
  ds.foldl (fun acc c => acc * 10 + (c.toNat - 48)) 0

/-- Modelled from the spec: the address grammar is digits, a bar, exactly four
lowercase-hex characters, and a closing bar; parsing is strict. -/
def parseAddr (cs : List Char) : Option (Addr × List Char) :=
  let p := takeDigits cs
  if p.1.isEmpty then none else
  match p.2 with
  | '|' :: h1 :: h2 :: h3 :: h4 :: '|' :: r =>
    if isHexCh h1 && isHexCh h2 && isHexCh h3 && isHexCh h4 then
      some (⟨digitsToNat p.1, String.mk [h1, h2, h3, h4]⟩, r)
    else none
  | _ => none

/-- Modelled from the spec: one address, optionally followed by a comma and a
second address, then the command tail. -/
def parseRange (cs : List Char) : Option (Addr × Option Addr × List Char) := do
  let (a1, r1) ← parseAddr cs
  match r1 with
  | ',' :: r2 => do
    let (a2, r3) ← parseAddr r2
    pure (a1, some a2, r3)
  | _ => pure (a1, none, r1)

/-- Parsed primitive operations. -/
inductive Cmd where
  | subst (pat rep : String) (gflag iflag : Bool)
  | del
  | app (blk : List String)
  | ins (blk : List String)
  | chg (blk : List String)
  | join
  | move (dest : Addr)
  | copy (dest : Addr)
  | indent (n : Nat)
  | dedent (n : Nat)
  | sortLines
  | pr
  | glob (inv : Bool) (pat : String) (sub : String)
deriving DecidableEq, Repr

def dropSpaces : List Char → List Char
  | ' ' :: rest => dropSpaces rest
  | cs => cs

/-- Take characters up to an (unescaped) slash delimiter. -/
def takeUntilSlash : List Char → Option (List Char × List Char)
  | [] => none
  | '/' :: rest => some ([], rest)
  | c :: rest => do
    let (xs, r) ← takeUntilSlash rest
    pure (c :: xs, r)

/-- Substitution flags: each remaining character must be `g` or `i`. -/
def parseFlags : List Char → Option (Bool × Bool)
  | [] => some (false, false)
  | 'g' :: rest => do
    let p ← parseFlags rest
    pure (true, p.2)
  | 'i' :: rest => do
    let p ← parseFlags rest
    pure (p.1, true)
  | _ => none

/-- Modelled from the spec: for the text commands the block is delimited from
the command letter by a newline and taken verbatim to the end of the command
string, each embedded newline starting a new inserted line. -/
def parseBlock : List Char → Option (List String)
  | [] => some []
  | '\n' :: rest => some (splitNL (String.mk rest))
  | _ => none

/-- Destination address for move and copy; nothing may trail it. -/
def parseDest (k : Addr → Cmd) (cs : List Char) : Option Cmd := do
  let (a, r) ← parseAddr (dropSpaces cs)
  if r.isEmpty then pure (k a) else none

/-- Optional level count for indent and dedent, defaulting to 1. -/
def parseLevel (cs : List Char) : Option Nat :=
  if (takeDigits cs).2.isEmpty then
    some (if (takeDigits cs).1.isEmpty then 1 else digitsToNat (takeDigits cs).1)
  else none

/-- Global command: `/PAT/` then the sub-command verbatim to the end. -/
def parseGlobal (inv : Bool) (cs : List Char) : Option Cmd := do
  let (pat, r) ← takeUntilSlash cs
  pure (Cmd.glob inv (String.mk pat) (String.mk r))

/-- Modelled from the spec: classify the tail after the addresses by its first
non-space character; commands that take no text block reject any trailing
content. -/
def parseTail (cs0 : List Char) : Option Cmd :=
  match dropSpaces cs0 with
  | 's' :: 'o' :: 'r' :: 't' :: rest => if rest.isEmpty then some Cmd.sortLines else none
  | 's' :: '/' :: rest =>
    (do
      let (pat, r1) ← takeUntilSlash rest
      let (rep, r2) ← takeUntilSlash r1
      let (g, i) ← parseFlags r2
      pure (Cmd.subst (String.mk pat) (String.mk rep) g i))
  | 'd' :: rest => if rest.isEmpty then some Cmd.del else none
  | 'a' :: rest => (parseBlock rest).map Cmd.app
  | 'i' :: rest => (parseBlock rest).map Cmd.ins
  | 'c' :: rest => (parseBlock rest).map Cmd.chg
  | 'j' :: rest => if rest.isEmpty then some Cmd.join else none
  | 'p' :: rest => if rest.isEmpty then some Cmd.pr else none
  | 'm' :: rest => parseDest Cmd.move rest
  | 't' :: rest => parseDest Cmd.copy rest
  | '>' :: rest => (parseLevel rest).map Cmd.indent
  | '<' :: rest => (parseLevel rest).map Cmd.dedent
  | 'g' :: '!' :: '/' :: rest => parseGlobal true rest
  | 'g' :: '/' :: rest => parseGlobal false rest
  | 'v' :: '/' :: rest => parseGlobal true rest
  | _ => none

/-- Modelled from the spec: a sentinel address passes verification
unconditionally; otherwise fail if the line number is 0, exceeds the current
buffer length, or the supplied hash differs from the current line's hash (the
message carries both hashes). -/
def verifyAddr (b : Buffer) (a : Addr) : Except String Unit :=
  if a.isSentinel then .ok ()
  else if a.lineno = 0 then .error "bad address: line 0"
  else
    match b.recs[a.lineno - 1]? with
    | none => .error ("line out of range: " ++ toString a.lineno)
    | some r =>
      if line_hash r.content = a.hash then .ok ()
      else .error ("hash mismatch at line " ++ toString a.lineno ++ ": got " ++
                   a.hash ++ ", actual " ++ line_hash r.content)

/-- A verified range: endpoints, whether it is the sentinel, and whether two
addresses were supplied. -/
structure RangeInfo where
  n1 : Nat
  n2 : Nat
  sentinel : Bool
  isRange : Bool
deriving DecidableEq, Repr

/-- Modelled from the spec: verify both endpoints against the current buffer
and require the range not to be inverted; the sentinel is not legal as a range
endpoint. -/
def resolveRange (b : Buffer) (a1 : Addr) (oa2 : Option Addr) :
    Except String RangeInfo :=
  match oa2 with
  | none => do
    verifyAddr b a1
    pure ⟨a1.lineno, a1.lineno, a1.isSentinel, false⟩
  | some a2 =>
    if a1.isSentinel || a2.isSentinel then .error "sentinel not allowed in range"
    else do
      verifyAddr b a1
      verifyAddr b a2
      if a1.lineno ≤ a2.lineno then pure ⟨a1.lineno, a2.lineno, false, true⟩
      else .error "inverted range"

/-- The records of lines `n1..n2` (1-based, inclusive). -/
def sliceRange (recs : List LineRec) (n1 n2 : Nat) : List LineRec :=
  (recs.drop (n1 - 1)).take (n2 - n1 + 1)

/-- The buffer records with lines `n1..n2` removed. -/
def removeRange (recs : List LineRec) (n1 n2 : Nat) : List LineRec :=
  recs.take (n1 - 1) ++ recs.drop n2

/-- Insert records so that they occupy positions `idx+1 ...` (0-based `idx`). -/
def insertAt (recs : List LineRec) (idx : Nat) (xs : List LineRec) : List LineRec :=
  recs.take idx ++ xs ++ recs.drop idx

/-- A NEW line produced by a command: no origin, counted as modified. -/
def newRec (s : String) : LineRec := ⟨s, none, true⟩

/-- Original line numbers carried by a list of records. -/
def origins (recs : List LineRec) : List Nat := recs.filterMap (·.origin)

/-- Literal pattern match at the head of a character list, optionally
case-insensitive; returns the remainder after the match. -/
def matchAt (ci : Bool) : List Char → List Char → Option (List Char)
  | [], s => some s
  | _ :: _, [] => none
  | p :: ps, c :: cs =>
    if (if ci then p.toLower = c.toLower else p = c) then matchAt ci ps cs else none

/-- One fuelled pass of literal substitution over a character list; returns
whether the pattern matched at least once and the rewritten characters. -/
def substChars (ci g : Bool) (pat rep : List Char) : Nat → List Char → (Bool × List Char)
  | 0, s => (false, s)
  | _ + 1, [] => (false, [])
  | fuel + 1, c :: cs =>
    match matchAt ci pat (c :: cs) with
    | some rest =>
      if g then
        let p := substChars ci g pat rep fuel rest
        (true, rep ++ p.2)
      else (true, rep ++ rest)
    | none =>
      let p := substChars ci g pat rep fuel cs
      (p.1, c :: p.2)

/-- Substitution applied to the line at position `k` when it lies in the
range; the line counts as modified iff the pattern matched at least once. -/
def substLine (n1 n2 : Nat) (pat rep : String) (g i : Bool) (k : Nat) (r : LineRec) : LineRec :=
  if n1 ≤ k ∧ k ≤ n2 then
    let p := substChars i g pat.data rep.data (r.content.data.length + 1) r.content.data
    if p.1 then { content := String.mk p.2, origin := r.origin, touched := true } else r
  else r

/-- Modelled from the spec: substitution applies to each line of the range; a
line counts as modified iff the pattern matched at least once.  The modelled
dialect is literal nonempty patterns (the spec leaves the dialect open). -/
def applySubst (b : Buffer) (n1 n2 : Nat) (pat rep : String) (g i : Bool) :
    Except String Buffer :=
  if pat = "" then .error "empty pattern" else
  .ok { b with recs := mapFrom (substLine n1 n2 pat rep g i) 1 b.recs }

/-- Modelled from the spec: delete removes the range and records the removed
lines' original numbers. -/
def applyDelete (b : Buffer) (n1 n2 : Nat) : Buffer :=
  { recs := removeRange b.recs n1 n2
    deleted := b.deleted ++ origins (sliceRange b.recs n1 n2) }

/-- Insert a text block as NEW records at a 0-based position. -/
def applyInsertAt (b : Buffer) (idx : Nat) (blk : List String) : Buffer :=
  { b with recs := insertAt b.recs idx (blk.map newRec) }

/-- Modelled from the spec: change deletes the range and inserts the block at
that position in one step. -/
def applyChange (b : Buffer) (n1 n2 : Nat) (blk : List String) : Buffer :=
  { recs := b.recs.take (n1 - 1) ++ blk.map newRec ++ b.recs.drop n2
    deleted := b.deleted ++ origins (sliceRange b.recs n1 n2) }

/-- Modelled from the spec: single-address join concatenates lines N and N+1,
deleting N+1's original number; joining at the last line fails. -/
def applyJoinSingle (b : Buffer) (n : Nat) : Except String Buffer :=
  match b.recs[n - 1]?, b.recs[n]? with
  | some r1, some r2 =>
    .ok { recs := b.recs.take (n - 1) ++
            [⟨r1.content ++ r2.content, r1.origin, true⟩] ++ b.recs.drop (n + 1)
          deleted := b.deleted ++ r2.origin.toList }
  | _, _ => .error "cannot join at the last line"

/-- Modelled from the spec: range join replaces the range by the concatenation
of its lines, deleting the originals of all but the first. -/
def applyJoinRange (b : Buffer) (n1 n2 : Nat) : Buffer :=
  let slice := sliceRange b.recs n1 n2
  let orig : Option Nat := match slice with | [] => none | r :: _ => r.origin
  { recs := b.recs.take (n1 - 1) ++
      [⟨String.join (slice.map (·.content)), orig, true⟩] ++ b.recs.drop n2
    deleted := b.deleted ++ origins slice.tail }

/-- Modelled from the spec: move snapshots the range before mutation, rejects a
destination inside the range, deletes the range without touching the deleted
set, re-resolves the destination by counting removed predecessors, and inserts
the snapshot there with the moved lines counted as modified. -/
def applyMove (b : Buffer) (n1 n2 : Nat) (dest : Addr) : Except String Buffer :=
  if dest.isSentinel then .error "sentinel not allowed as destination" else
  match verifyAddr b dest with
  | .error e => .error e
  | .ok _ =>
    if n1 ≤ dest.lineno ∧ dest.lineno ≤ n2 then
      .error "move destination inside moved range"
    else
      let src := sliceRange b.recs n1 n2
      let rest := removeRange b.recs n1 n2
      let d := if dest.lineno < n1 then dest.lineno else dest.lineno - (n2 - n1 + 1)
      .ok { b with recs := insertAt rest d (src.map (fun r => { r with touched := true })) }

/-- Modelled from the spec: copy is like move but leaves the source in place;
the inserted copies are NEW modified lines. -/
def applyCopy (b : Buffer) (n1 n2 : Nat) (dest : Addr) : Except String Buffer :=
  if dest.isSentinel then .error "sentinel not allowed as destination" else
  match verifyAddr b dest with
  | .error e => .error e
  | .ok _ =>
    if n1 ≤ dest.lineno ∧ dest.lineno ≤ n2 then
      .error "copy destination inside source range"
    else
      let src := sliceRange b.recs n1 n2
      .ok { b with recs := insertAt b.recs dest.lineno (src.map (fun r => ⟨r.content, none, true⟩)) }

def countLeadingSpaces : List Char → Nat
  | ' ' :: rest => countLeadingSpaces rest + 1
  | _ => 0

def indentLine (n : Nat) (s : String) : String :=
  String.mk (List.replicate (4 * n) ' ') ++ s

def dedentLine (n : Nat) (s : String) : String :=
  String.mk (s.data.drop (min (4 * n) (countLeadingSpaces s.data)))

/-- Indent or dedent applied to the line at position `k` when it lies in the
range; the line counts as modified iff its content actually changed. -/
def indentRec (n1 n2 lvl : Nat) (outdent : Bool) (k : Nat) (r : LineRec) : LineRec :=
  if n1 ≤ k ∧ k ≤ n2 then
    let c := if outdent then dedentLine lvl r.content else indentLine lvl r.content
    if c = r.content then r else { content := c, origin := r.origin, touched := true }
  else r

/-- Modelled from the spec: indent or dedent each line of the range by `lvl`
levels of four spaces (dedent removing at most what exists), counting a line as
modified iff its content actually changed. -/
def applyIndent (b : Buffer) (n1 n2 lvl : Nat) (outdent : Bool) : Buffer :=
  { b with recs := mapFrom (indentRec n1 n2 lvl outdent) 1 b.recs }

def strLe (a b : String) : Bool := decide (a ≤ b)

/-- Stable insertion into an index-tagged list sorted by content. -/
def insertRec (x : Nat × LineRec) : List (Nat × LineRec) → List (Nat × LineRec)
  | [] => [x]
  | y :: ys => if strLe x.2.content y.2.content then x :: y :: ys else y :: insertRec x ys

def sortRecs (l : List (Nat × LineRec)) : List (Nat × LineRec) := l.foldr insertRec []

/-- Modelled from the spec: stably sort the range lexicographically, marking
the lines whose position changed as modified. -/
def applySort (b : Buffer) (n1 n2 : Nat) : Buffer :=
  let tagged := mapFrom (fun i r => (i, r)) 0 (sliceRange b.recs n1 n2)
  let chosen := mapFrom (fun i p => if p.1 = i then p.2 else { p.2 with touched := true })
    0 (sortRecs tagged)
  { b with recs := b.recs.take (n1 - 1) ++ chosen ++ b.recs.drop n2 }

/-- Literal substring occurrence test (the modelled pattern dialect). -/
def hasMatch (pat : List Char) : List Char → Bool
  | [] => pat.isEmpty
  | c :: cs => (matchAt false pat (c :: cs)).isSome || hasMatch pat cs

def sentinelErr : String := "sentinel address only allowed with a or i"

/-- Modelled from the spec: dispatch of a verified range and a parsed
non-global command against the buffer.  The sentinel address is legal only for
append and insert; a nested global command is rejected. -/
def applyBasic (b : Buffer) (ri : RangeInfo) : Cmd → Except String Buffer
  | .subst pat rep g i =>
    if ri.sentinel then .error sentinelErr else applySubst b ri.n1 ri.n2 pat rep g i
  | .del => if ri.sentinel then .error sentinelErr else .ok (applyDelete b ri.n1 ri.n2)
  | .app blk => .ok (applyInsertAt b (if ri.sentinel then 0 else ri.n2) blk)
  | .ins blk => .ok (applyInsertAt b (if ri.sentinel then 0 else ri.n1 - 1) blk)
  | .chg blk =>
    if ri.sentinel then .error sentinelErr else .ok (applyChange b ri.n1 ri.n2 blk)
  | .join =>
    if ri.sentinel then .error sentinelErr
    else if ri.isRange then .ok (applyJoinRange b ri.n1 ri.n2)
    else applyJoinSingle b ri.n1
  | .move dest => if ri.sentinel then .error sentinelErr else applyMove b ri.n1 ri.n2 dest
  | .copy dest => if ri.sentinel then .error sentinelErr else applyCopy b ri.n1 ri.n2 dest
  | .indent n =>
    if ri.sentinel then .error sentinelErr else .ok (applyIndent b ri.n1 ri.n2 n false)
  | .dedent n =>
    if ri.sentinel then .error sentinelErr else .ok (applyIndent b ri.n1 ri.n2 n true)
  | .sortLines => if ri.sentinel then .error sentinelErr else .ok (applySort b ri.n1 ri.n2)
  | .pr => if ri.sentinel then .error sentinelErr else .ok b
  | .glob _ _ _ => .error "nested global not supported"

/-- Parse a full command string into its addresses and operation. -/
def parseCmd (s : String) : Except String (Addr × Option Addr × Cmd) :=
  match parseRange s.data with
  | none => .error ("malformed address in command: " ++ s)
  | some (a1, oa2, rest) =>
    match parseTail rest with
    | none => .error ("malformed command tail: " ++ s)
    | some c => .ok (a1, oa2, c)

/-- Run one non-global command string: parse, verify, apply. -/
def runCore (b : Buffer) (s : String) : Except String Buffer := do
  let (a1, oa2, c) ← parseCmd s
  let ri ← resolveRange b a1 oa2
  applyBasic b ri c

/-- Modelled from the spec: a global command snapshots the addresses (line
number and hash) of the matching lines in its range before any mutation, then
applies the sub-command to each snapshotted address in order, re-verifying
against the live buffer. -/
def applyGlobal (b : Buffer) (n1 n2 : Nat) (inv : Bool) (pat sub : String) :
    Except String Buffer :=
  let snap := (mapFrom (fun i r => (i, r)) 1 b.recs).filterMap
    (fun p => if n1 ≤ p.1 ∧ p.1 ≤ n2 ∧ hasMatch pat.data p.2.content.data ≠ inv
              then some (p.1, line_hash p.2.content) else none)
  snap.foldlM (fun cur p => runCore cur (toString p.1 ++ "|" ++ p.2 ++ "|" ++ sub)) b

/-- Modelled from the spec: run one top-level command string against the
buffer: parse the addresses, verify them, classify the tail, and dispatch. -/
def runCmd (b : Buffer) (s : String) : Except String Buffer := do
  let (a1, oa2, c) ← parseCmd s
  let ri ← resolveRange b a1 oa2
  match c with
  | .glob inv pat sub =>
    if ri.sentinel then .error sentinelErr else applyGlobal b ri.n1 ri.n2 inv pat sub
  | _ => applyBasic b ri c

/-- Modelled from the spec: the buffer created once per call from the input
text; every line carries its original 1-based number and is unmodified. -/
def initBuffer (text : String) : Buffer :=
  { recs := mapFrom (fun i s => ⟨s, some i, false⟩) 1 (splitText text), deleted := [] }

/-- Modelled from the spec: `exhash` applies the command strings in submission
order to the buffer built from the text and freezes the result; any error
aborts the whole call. -/
def exhash (text : String) (cmds : List String) : Except String EdResult := do
  let b ← cmds.foldlM runCmd (initBuffer text)
  pure (buildResult b)

namespace EditResult

/-- Embedded from `exhash/__init__.py`: `text` joins the lines with newlines. -/
def text (r : EdResult) : String := joinNL r.lines

/-- Embedded from `exhash/__init__.py`: `view` formats each hash-line pair. -/
def view (r : EdResult) : String :=
  joinNL ((r.hashes.zip r.lines).map (fun p => p.1 ++ "  " ++ p.2))

/-- Python list indexing: negative indices count from the end; out-of-range
access is an IndexError, modelled as `none`. -/
def pyGet (l : List String) (i : Int) : Option String :=
  if 0 ≤ i then l[i.toNat]?
  else if (-i).toNat ≤ l.length then l[l.length - (-i).toNat]? else none

/-- Embedded from `exhash/__init__.py`: `repr` joins `hashes[i-1]  lines[i-1]`
for the entries `i` of `modified` whose `i-1` is below the length of `hashes`,
with Python indexing; `none` models an IndexError escaping the join. -/
def reprFn (r : EdResult) : Option String :=
  ((r.modified.filter (fun (i : Nat) => ((i : Int) - 1 < (r.hashes.length : Int) : Bool))).mapM
    (fun (i : Nat) =>
      (pyGet r.hashes ((i : Int) - 1)).bind (fun h =>
        (pyGet r.lines ((i : Int) - 1)).map (fun l => h ++ "  " ++ l)))).map joinNL

end EditResult

/-! ### Helper lemmas -/

theorem mapFrom_length (f : Nat → α → β) (k : Nat) (l : List α) :
    (mapFrom f k l).length = l.length := by
  induction l generalizing k with
  | nil => rfl
  | cons a as ih => simp [mapFrom, ih]

theorem mapFrom_getElem? (f : Nat → α → β) (k : Nat) (l : List α) (i : Nat) :
    (mapFrom f k l)[i]? = (l[i]?).map (f (k + i)) := by
  induction l generalizing k i with
  | nil => simp [mapFrom]
  | cons a as ih =>
    cases i with
    | zero => simp [mapFrom]
    | succ j =>
      simp only [mapFrom, List.getElem?_cons_succ]
      rw [ih (k + 1) j, show k + 1 + j = k + (j + 1) from by omega]

theorem mapFrom_map (f : Nat → α → β) (g : β → γ) (k : Nat) (l : List α) :
    (mapFrom f k l).map g = mapFrom (fun i a => g (f i a)) k l := by
  induction l generalizing k with
  | nil => rfl
  | cons a as ih => simp [mapFrom, ih]

theorem mapFrom_id (k : Nat) (l : List α) : mapFrom (fun _ a => a) k l = l := by
  induction l generalizing k with
  | nil => rfl
  | cons a as ih => simp [mapFrom, ih]

theorem splitNLAux_ne_nil (cs acc : List Char) : splitNLAux cs acc ≠ [] := by
  cases cs with
  | nil => simp [splitNLAux]
  | cons c rest =>
    by_cases h : c = '\n' <;> simp [splitNLAux, h]
    exact splitNLAux_ne_nil rest (c :: acc)

theorem joinNL_cons (a : String) (l : List String) (h : l ≠ []) :
    joinNL (a :: l) = a ++ "\n" ++ joinNL l := by
  cases l with
  | nil => exact absurd rfl h
  | cons b bs => rfl

theorem data_joinNL_splitNLAux (cs acc : List Char) :
    (joinNL (splitNLAux cs acc)).data = acc.reverse ++ cs := by
  induction cs generalizing acc with
  | nil => simp [splitNLAux, joinNL]
  | cons c rest ih =>
    by_cases h : c = '\n'
    · subst h
      rw [show splitNLAux ('\n' :: rest) acc =
            String.mk acc.reverse :: splitNLAux rest [] from by simp [splitNLAux],
          joinNL_cons _ _ (splitNLAux_ne_nil rest []), String.data_append,
          String.data_append, ih []]
      simp
    · rw [show splitNLAux (c :: rest) acc = splitNLAux rest (c :: acc) from by
            simp [splitNLAux, h], ih (c :: acc)]
      simp

theorem joinNL_splitNL (t : String) : joinNL (splitNL t) = t := by
  apply String.ext
  rw [splitNL, data_joinNL_splitNLAux]
  simp

theorem splitNLAux_append_nl (cs acc : List Char) :
    splitNLAux (cs ++ ['\n']) acc = splitNLAux cs acc ++ [""] := by
  induction cs generalizing acc with
  | nil => simp [splitNLAux]
  | cons c rest ih =>
    by_cases h : c = '\n' <;> simp [splitNLAux, h, ih]

theorem splitNL_append_nl (s : String) : splitNL (s ++ "\n") = splitNL s ++ [""] := by
  rw [splitNL, splitNL, String.data_append]
  exact splitNLAux_append_nl s.data []

theorem bindE_error (e : String) (g : α → Except String β) :
    (Except.error e >>= g) = .error e := rfl

theorem bindE_ok (a : α) (g : α → Except String β) : (Except.ok a >>= g) = g a := rfl

theorem pureE (a : α) : (pure a : Except String α) = .ok a := rfl

theorem exhash_ok_inv {text : String} {cmds : List String} {res : EdResult}
    (h : exhash text cmds = .ok res) :
    ∃ b, List.foldlM runCmd (initBuffer text) cmds = .ok b ∧ res = buildResult b := by
  unfold exhash at h
  cases hf : List.foldlM runCmd (initBuffer text) cmds with
  | error e =>
    rw [hf, bindE_error] at h
    exact absurd h (by simp)
  | ok b =>
    rw [hf, bindE_ok, pureE] at h
    exact ⟨b, rfl, (Except.ok.inj h).symm⟩

theorem buildResult_lines (b : Buffer) :
    (buildResult b).lines = b.recs.map (·.content) := rfl

theorem buildResult_hashes (b : Buffer) :
    (buildResult b).hashes = mapFrom (fun i l => lnhash i l) 1 (buildResult b).lines := rfl

theorem buildResult_modified (b : Buffer) :
    (buildResult b).modified = (mapFrom (fun i r => (i, r.touched)) 1 b.recs).filterMap
      (fun p => if p.2 then some p.1 else none) := rfl

theorem initBuffer_recs (t : String) :
    (initBuffer t).recs = mapFrom (fun i s => ⟨s, some i, false⟩) 1 (splitText t) := rfl

theorem mapFrom_mapFrom (f : Nat → α → β) (g : Nat → β → γ) (k : Nat) (l : List α) :
    mapFrom g k (mapFrom f k l) = mapFrom (fun i a => g i (f i a)) k l := by
  induction l generalizing k with
  | nil => rfl
  | cons a as ih => simp [mapFrom, ih]

theorem filterMap_mapFrom_none (f : γ → Option δ) (g : Nat → α → γ) (k : Nat)
    (l : List α) (h : ∀ i a, f (g i a) = none) : (mapFrom g k l).filterMap f = [] := by
  induction l generalizing k with
  | nil => rfl
  | cons a as ih => simp [mapFrom, List.filterMap_cons, h, ih]

theorem joinNL_splitText (t : String) : joinNL (splitText t) = stripNL t := by
  rw [splitText, stripNL]
  cases hl : t.data.getLast? with
  | none =>
    have : t = "" := String.ext (by simpa using hl)
    subst this
    rfl
  | some c =>
    by_cases hc : c = '\n'
    · simp only [hc, if_pos rfl]
      exact joinNL_splitNL (String.mk t.data.dropLast)
    · simp only [if_neg hc]
      exact joinNL_splitNL t

/-! ### Claims -/

/-- C1: for every successful `exhash` call the result's hashes array has the
same length as its lines array, and entry `i` equals `lnhash (i+1) lines[i]`. -/
theorem C1_result_hashes (text : String) (cmds : List String) (res : EdResult)
    (h : exhash text cmds = .ok res) :
    res.hashes.length = res.lines.length ∧
    ∀ i l, res.lines[i]? = some l → res.hashes[i]? = some (lnhash (i + 1) l) := by
  obtain ⟨b, _, rfl⟩ := exhash_ok_inv h
  refine ⟨by rw [buildResult_hashes, mapFrom_length], ?_⟩
  intro i l hl
  rw [buildResult_hashes, mapFrom_getElem?, hl]
  simp [Nat.add_comm 1 i]

/-- Witness for C1 at a concrete successful call. -/
theorem C1_result_hashes_witness :
    ∃ res, exhash "foo\nbar\n" [] = .ok res ∧
      (res.hashes.length = res.lines.length ∧
       ∀ i l, res.lines[i]? = some l → res.hashes[i]? = some (lnhash (i + 1) l)) :=
  ⟨_, rfl, C1_result_hashes "foo\nbar\n" [] _ rfl⟩

/-- C2: with zero commands, `exhash` returns the newline split of the input
(trailing empty element discarded, empty input giving zero lines, interior
empty lines preserved), with empty modified and deleted sets, and the result's
`text()` equals the input minus one trailing newline if present. -/
theorem C2_noop (text : String) (res : EdResult) (h : exhash text [] = .ok res) :
    (res.lines = splitText text ∧ res.modified = [] ∧ res.deleted = [] ∧
      EditResult.text res = stripNL text) ∧
    splitText "" = [] ∧ splitText "foo\nbar\n" = ["foo", "bar"] ∧
    splitText "a\n\nb" = ["a", "", "b"] := by
  have hres : res = buildResult (initBuffer text) := by
    obtain ⟨b, hb, rfl⟩ := exhash_ok_inv h
    rw [show List.foldlM runCmd (initBuffer text) [] = .ok (initBuffer text) from rfl] at hb
    rw [Except.ok.inj hb]
  subst hres
  have hlines : (buildResult (initBuffer text)).lines = splitText text := by
    rw [buildResult_lines, initBuffer, mapFrom_map, mapFrom_id]
  refine ⟨⟨hlines, ?_, rfl, ?_⟩, rfl, by decide, by decide⟩
  · rw [buildResult_modified, initBuffer_recs, mapFrom_mapFrom]
    exact filterMap_mapFrom_none _ _ _ _ (fun i a => rfl)
  · rw [EditResult.text, hlines]
    exact joinNL_splitText text

/-- Witness for C2 at a concrete input with a trailing newline. -/
theorem C2_noop_witness :
    ∃ res, exhash "foo\nbar\n" [] = .ok res ∧
      ((res.lines = splitText "foo\nbar\n" ∧ res.modified = [] ∧ res.deleted = [] ∧
        EditResult.text res = stripNL "foo\nbar\n") ∧
       splitText "" = [] ∧ splitText "foo\nbar\n" = ["foo", "bar"] ∧
       splitText "a\n\nb" = ["a", "", "b"]) :=
  ⟨_, rfl, C2_noop "foo\nbar\n" _ rfl⟩

theorem hexDigit_mem_hex : ∀ n, n < 16 → hexDigit n ∈ ("0123456789abcdef").data := by
  decide

/-- C7: `line_hash` always yields exactly 4 lowercase hexadecimal characters
and is deterministic: equal inputs give equal hashes. -/
theorem C7_line_hash (s t : String) :
    (line_hash s).length = 4 ∧
    (∀ c ∈ (line_hash s).data, c ∈ ("0123456789abcdef").data) ∧
    (s = t → line_hash s = line_hash t) := by
  refine ⟨rfl, ?_, fun h => h ▸ rfl⟩
  intro c hc
  simp only [line_hash, String.mk, List.mem_cons, List.not_mem_nil, or_false] at hc
  rcases hc with h | h | h | h <;> rw [h] <;>
    exact hexDigit_mem_hex _ (Nat.mod_lt _ (by norm_num))

/-- Witness for C7 at a concrete line. -/
theorem C7_line_hash_witness :
    (line_hash "hello").length = 4 ∧
    (∀ c ∈ (line_hash "hello").data, c ∈ ("0123456789abcdef").data) ∧
    ("hello" = "hello" → line_hash "hello" = line_hash "hello") :=
  C7_line_hash "hello" "hello"

/-- C3: for a non-sentinel address, verification fails exactly when the line
number is 0, exceeds the buffer length, or the supplied hash differs from the
current line's hash; with the correct current hash verification succeeds, and
concretely an otherwise-valid delete succeeds while a stale hash aborts the
whole call. -/
theorem C3_verification (b : Buffer) (a : Addr) (hs : a.isSentinel = false) :
    ((∃ e, verifyAddr b a = .error e) ↔
      (a.lineno = 0 ∨ b.recs.length < a.lineno ∨
        ∃ r, b.recs[a.lineno - 1]? = some r ∧ line_hash r.content ≠ a.hash)) ∧
    (∀ n r, b.recs[n - 1]? = some r → n ≠ 0 →
      verifyAddr b ⟨n, line_hash r.content⟩ = .ok ()) ∧
    (∃ res, exhash "hello\nworld\n" [lnhash 1 "hello" ++ "d"] = .ok res) ∧
    (∃ e, exhash "hello\nworld\n" ["1|0000|d"] = .error e) := by
  refine ⟨?_, ?_, ⟨_, rfl⟩, ⟨_, rfl⟩⟩
  · constructor
    · rintro ⟨e, he⟩
      by_cases h0 : a.lineno = 0
      · exact Or.inl h0
      · cases hg : b.recs[a.lineno - 1]? with
        | none =>
          refine Or.inr (Or.inl ?_)
          have := List.getElem?_eq_none_iff.mp hg
          omega
        | some r =>
          by_cases hh : line_hash r.content = a.hash
          · simp [verifyAddr, hs, h0, hg, hh] at he
          · exact Or.inr (Or.inr ⟨r, rfl, hh⟩)
    · intro hcase
      rw [verifyAddr]
      simp only [hs, Bool.false_eq_true, if_false]
      rcases hcase with h0 | hlen | ⟨r, hg, hne⟩
      · rw [if_pos h0]
        exact ⟨_, rfl⟩
      · have h0 : ¬ a.lineno = 0 := by omega
        rw [if_neg h0]
        have hg : b.recs[a.lineno - 1]? = none := by
          rw [List.getElem?_eq_none_iff]
          omega
        rw [hg]
        exact ⟨_, rfl⟩
      · by_cases h0 : a.lineno = 0
        · rw [if_pos h0]
          exact ⟨_, rfl⟩
        · rw [if_neg h0]
          simp only [hg]
          rw [if_neg hne]
          exact ⟨_, rfl⟩
  · intro n r hr hn
    have hsent : Addr.isSentinel ⟨n, line_hash r.content⟩ = false := by
      simp [Addr.isSentinel, hn]
    simp [verifyAddr, hsent, hn, hr]

/-- Witness for C3 at a concrete buffer and stale address. -/
theorem C3_verification_witness :
    (((∃ e, verifyAddr (initBuffer "hello\nworld\n") ⟨1, "0000"⟩ = .error e) ↔
      ((1 : Nat) = 0 ∨ (initBuffer "hello\nworld\n").recs.length < 1 ∨
        ∃ r, (initBuffer "hello\nworld\n").recs[(1 : Nat) - 1]? = some r ∧
          line_hash r.content ≠ "0000")) ∧
     (∀ n r, (initBuffer "hello\nworld\n").recs[n - 1]? = some r → n ≠ 0 →
       verifyAddr (initBuffer "hello\nworld\n") ⟨n, line_hash r.content⟩ = .ok ()) ∧
     (∃ res, exhash "hello\nworld\n" [lnhash 1 "hello" ++ "d"] = .ok res) ∧
     (∃ e, exhash "hello\nworld\n" ["1|0000|d"] = .error e)) :=
  C3_verification (initBuffer "hello\nworld\n") ⟨1, "0000"⟩ rfl

/-- C4: the first error in any command aborts the whole `exhash` call with
that error; no partial result is produced. -/
theorem C4_atomic (text : String) (pre : List String) (c : String)
    (post : List String) (b : Buffer) (e : String)
    (hpre : List.foldlM runCmd (initBuffer text) pre = .ok b)
    (hc : runCmd b c = .error e) :
    exhash text (pre ++ c :: post) = .error e := by
  unfold exhash
  rw [List.foldlM_append, hpre, bindE_ok, List.foldlM_cons, hc, bindE_error, bindE_error]

/-- Witness for C4: a stale-hash delete aborts a call that has more commands
queued after it. -/
theorem C4_atomic_witness :
    exhash "a\nb\n" ([] ++ "1|0000|d" :: [lnhash 2 "b" ++ "d"]) =
      .error "hash mismatch at line 1: got 0000, actual 8bfc" :=
  C4_atomic "a\nb\n" [] "1|0000|d" [lnhash 2 "b" ++ "d"] (initBuffer "a\nb\n")
    "hash mismatch at line 1: got 0000, actual 8bfc" rfl rfl

theorem mem_mapFrom {x : β} (g : Nat → α → β) (k : Nat) (l : List α) :
    x ∈ mapFrom g k l ↔ ∃ j a, l[j]? = some a ∧ x = g (k + j) a := by
  induction l generalizing k with
  | nil => simp [mapFrom]
  | cons a as ih =>
    simp only [mapFrom, List.mem_cons, ih (k + 1)]
    constructor
    · rintro (rfl | ⟨j, a2, hj, rfl⟩)
      · exact ⟨0, a, by simp, by simp⟩
      · exact ⟨j + 1, a2, by simpa using hj, by rw [show k + (j + 1) = k + 1 + j from by omega]⟩
    · rintro ⟨j, a2, hj, rfl⟩
      cases j with
      | zero =>
        simp only [List.getElem?_cons_zero, Option.some.injEq] at hj
        subst hj
        exact Or.inl (by simp)
      | succ j2 =>
        simp only [List.getElem?_cons_succ] at hj
        exact Or.inr ⟨j2, a2, hj, by rw [show k + 1 + j2 = k + (j2 + 1) from by omega]⟩

theorem mem_buildResult_modified (b : Buffer) (p : Nat) :
    p ∈ (buildResult b).modified ↔
      ∃ j r, b.recs[j]? = some r ∧ r.touched = true ∧ p = 1 + j := by
  rw [buildResult_modified]
  simp only [List.mem_filterMap, mem_mapFrom]
  constructor
  · rintro ⟨q, ⟨j, r, hj, rfl⟩, hq⟩
    by_cases ht : r.touched = true
    · rw [if_pos ht] at hq
      exact ⟨j, r, hj, ht, (Option.some.inj hq).symm⟩
    · rw [if_neg ht] at hq
      exact absurd hq (by simp)
  · rintro ⟨j, r, hj, ht, rfl⟩
    exact ⟨(1 + j, r.touched), ⟨j, r, hj, rfl⟩, by rw [if_pos ht]⟩

/-- C5: an append command inserts its block after the addressed line (after
the range's last line; at position 1 for the sentinel), each embedded newline
in the block starts a new inserted line, a trailing newline produces a final
empty inserted line, and the current line numbers of all inserted lines appear
in `modified`. -/
theorem C5_append (b : Buffer) (ri : RangeInfo) (blk : List String) :
    (applyBasic b ri (Cmd.app blk) =
      .ok (applyInsertAt b (if ri.sentinel then 0 else ri.n2) blk)) ∧
    ((applyInsertAt b (if ri.sentinel then 0 else ri.n2) blk).recs =
      b.recs.take (if ri.sentinel then 0 else ri.n2) ++ blk.map newRec ++
        b.recs.drop (if ri.sentinel then 0 else ri.n2)) ∧
    ((if ri.sentinel then 0 else ri.n2) ≤ b.recs.length →
      ∀ k, k < blk.length →
        ((if ri.sentinel then 0 else ri.n2) + k + 1) ∈
          (buildResult (applyInsertAt b (if ri.sentinel then 0 else ri.n2) blk)).modified) ∧
    (∀ rest : List Char,
      parseTail ('a' :: '\n' :: rest) = some (Cmd.app (splitNL (String.mk rest)))) ∧
    (∀ s : String, splitNL (s ++ "\n") = splitNL s ++ [""]) := by
  refine ⟨rfl, rfl, ?_, fun rest => rfl, splitNL_append_nl⟩
  intro hle k hk
  set idx := if ri.sentinel then 0 else ri.n2 with hidx
  rw [mem_buildResult_modified]
  refine ⟨idx + k, newRec (blk.get ⟨k, hk⟩), ?_, rfl, by omega⟩
  show (insertAt b.recs idx (blk.map newRec))[idx + k]? = _
  rw [insertAt, List.append_assoc]
  have hlt : (b.recs.take idx).length = idx := by
    rw [List.length_take]
    omega
  rw [List.getElem?_append_right (by omega : (b.recs.take idx).length ≤ idx + k), hlt]
  rw [List.getElem?_append_left (by simpa using hk), List.getElem?_map]
  simp [List.getElem?_eq_getElem hk]

/-- Witness for C5 at a concrete buffer, range and two-line block. -/
theorem C5_append_witness :
    ((applyBasic (initBuffer "a\nb\n") ⟨1, 1, false, false⟩ (Cmd.app ["x", "y"]) =
      .ok (applyInsertAt (initBuffer "a\nb\n") 1 ["x", "y"])) ∧
     ((applyInsertAt (initBuffer "a\nb\n") 1 ["x", "y"]).recs =
       (initBuffer "a\nb\n").recs.take 1 ++ ["x", "y"].map newRec ++
         (initBuffer "a\nb\n").recs.drop 1) ∧
     ((1 : Nat) ≤ (initBuffer "a\nb\n").recs.length →
       ∀ k, k < (["x", "y"] : List String).length →
         (1 + k + 1) ∈ (buildResult (applyInsertAt (initBuffer "a\nb\n") 1 ["x", "y"])).modified) ∧
     (∀ rest : List Char,
       parseTail ('a' :: '\n' :: rest) = some (Cmd.app (splitNL (String.mk rest)))) ∧
     (∀ s : String, splitNL (s ++ "\n") = splitNL s ++ [""])) ∧
    (2 ∈ (buildResult (applyInsertAt (initBuffer "a\nb\n") 1 ["x", "y"])).modified ∧
     3 ∈ (buildResult (applyInsertAt (initBuffer "a\nb\n") 1 ["x", "y"])).modified) := by
  have h := C5_append (initBuffer "a\nb\n") ⟨1, 1, false, false⟩ ["x", "y"]
  exact ⟨h, h.2.2.1 (by decide) 0 (by decide), h.2.2.1 (by decide) 1 (by decide)⟩

/-- C6: commands whose operation takes no text block reject a newline plus
further text after the operation, and such a command makes the whole `exhash`
call error. -/
theorem C6_trailing (extra : List Char) :
    parseTail ('d' :: '\n' :: extra) = none ∧
    parseTail ('j' :: '\n' :: extra) = none ∧
    parseTail ('s' :: 'o' :: 'r' :: 't' :: '\n' :: extra) = none ∧
    parseTail ('p' :: '\n' :: extra) = none ∧
    (∀ cs a, parseAddr (dropSpaces cs) = some (a, '\n' :: extra) →
      parseTail ('m' :: cs) = none ∧ parseTail ('t' :: cs) = none) ∧
    (∀ cs, (takeDigits cs).2 = '\n' :: extra →
      parseTail ('>' :: cs) = none ∧ parseTail ('<' :: cs) = none) ∧
    (∃ e, exhash "a\nb\n" [lnhash 1 "a" ++ "d\nextra"] = .error e) := by
  refine ⟨rfl, rfl, rfl, rfl, ?_, ?_, ⟨_, rfl⟩⟩
  · intro cs a hp
    constructor
    · rw [show parseTail ('m' :: cs) = parseDest Cmd.move cs from rfl]
      unfold parseDest
      rw [hp]
      rfl
    · rw [show parseTail ('t' :: cs) = parseDest Cmd.copy cs from rfl]
      unfold parseDest
      rw [hp]
      rfl
  · intro cs hd
    have hlvl : parseLevel cs = none := by
      unfold parseLevel
      rw [hd]
      rfl
    constructor
    · rw [show parseTail ('>' :: cs) = (parseLevel cs).map Cmd.indent from rfl, hlvl]
      rfl
    · rw [show parseTail ('<' :: cs) = (parseLevel cs).map Cmd.dedent from rfl, hlvl]
      rfl

/-- Witness for C6 at concrete command tails. -/
theorem C6_trailing_witness :
    parseTail ('d' :: '\n' :: "x".data) = none ∧
    parseTail ('m' :: "1|8bfc|\nx".data) = none ∧
    parseTail ('>' :: "2\nx".data) = none := by
  have h := C6_trailing "x".data
  exact ⟨h.1, (h.2.2.2.2.1 "1|8bfc|\nx".data ⟨1, "8bfc"⟩ rfl).1,
    (h.2.2.2.2.2.1 "2\nx".data rfl).1⟩

/-- C8: `lnhashview` is in one-to-one correspondence with the zero-command
`exhash` lines; entry `i` is `hashes[i]` followed by two spaces and the line,
so its address prefix equals `hashes[i]`; empty input gives the empty list. -/
theorem C8_lnhashview (text : String) (res : EdResult) (h : exhash text [] = .ok res) :
    (lnhashview text).length = res.lines.length ∧
    (∀ i : Nat, (lnhashview text)[i]? =
      (res.hashes[i]?).bind (fun hh => (res.lines[i]?).map (fun l => hh ++ "  " ++ l))) ∧
    lnhashview "" = [] := by
  have hres : res = buildResult (initBuffer text) := by
    obtain ⟨b, hb, rfl⟩ := exhash_ok_inv h
    rw [show List.foldlM runCmd (initBuffer text) [] = .ok (initBuffer text) from rfl] at hb
    rw [Except.ok.inj hb]
  subst hres
  have hlines : (buildResult (initBuffer text)).lines = splitText text := by
    rw [buildResult_lines, initBuffer, mapFrom_map, mapFrom_id]
  refine ⟨?_, ?_, rfl⟩
  · rw [lnhashview, mapFrom_length, hlines]
  · intro i
    rw [lnhashview, mapFrom_getElem?, buildResult_hashes, mapFrom_getElem?, hlines]
    cases (splitText text)[i]? with
    | none => rfl
    | some l => rfl

/-- Witness for C8 at a concrete input. -/
theorem C8_lnhashview_witness :
    ∃ res, exhash "a\nb\nc" [] = .ok res ∧
      ((lnhashview "a\nb\nc").length = res.lines.length ∧
       (∀ i : Nat, (lnhashview "a\nb\nc")[i]? =
         (res.hashes[i]?).bind (fun hh => (res.lines[i]?).map (fun l => hh ++ "  " ++ l))) ∧
       lnhashview "" = []) :=
  ⟨_, rfl, C8_lnhashview "a\nb\nc" _ rfl⟩

theorem verifyAddr_ok_bounds {b : Buffer} {a : Addr} (hs : a.isSentinel = false)
    (h : verifyAddr b a = .ok ()) : 1 ≤ a.lineno ∧ a.lineno ≤ b.recs.length := by
  rw [verifyAddr] at h
  simp only [hs, Bool.false_eq_true, if_false] at h
  by_cases h0 : a.lineno = 0
  · rw [if_pos h0] at h
    exact absurd h (by simp)
  · rw [if_neg h0] at h
    cases hg : b.recs[a.lineno - 1]? with
    | none =>
      simp only [hg] at h
      exact absurd h (by simp)
    | some r =>
      obtain ⟨hlt, -⟩ := List.getElem?_eq_some_iff.mp hg
      omega

/-- The buffer produced by a successful move with re-resolved destination `d`. -/
def moveResult (b : Buffer) (n1 n2 d : Nat) : Buffer where
  recs := insertAt (removeRange b.recs n1 n2) d
    ((sliceRange b.recs n1 n2).map (fun r => { r with touched := true }))
  deleted := b.deleted

theorem moveResult_recs (b : Buffer) (n1 n2 d : Nat) :
    (moveResult b n1 n2 d).recs = insertAt (removeRange b.recs n1 n2) d
      ((sliceRange b.recs n1 n2).map (fun r => { r with touched := true })) := rfl

theorem applyMove_ok_inv {b : Buffer} {n1 n2 : Nat} {dest : Addr} {b2 : Buffer}
    (h : applyMove b n1 n2 dest = .ok b2) :
    dest.isSentinel = false ∧ verifyAddr b dest = .ok () ∧
    ¬(n1 ≤ dest.lineno ∧ dest.lineno ≤ n2) ∧
    b2 = moveResult b n1 n2
      (if dest.lineno < n1 then dest.lineno else dest.lineno - (n2 - n1 + 1)) := by
  rw [applyMove] at h
  by_cases hsent : dest.isSentinel = true
  · rw [if_pos hsent] at h
    exact absurd h (by simp)
  · rw [if_neg hsent] at h
    cases hv : verifyAddr b dest with
    | error e =>
      simp only [hv] at h
      exact absurd h (by simp)
    | ok u =>
      cases u
      simp only [hv] at h
      by_cases hin : n1 ≤ dest.lineno ∧ dest.lineno ≤ n2
      · rw [if_pos hin] at h
        exact absurd h (by simp)
      · rw [if_neg hin] at h
        exact ⟨by simpa using hsent, rfl, hin, (Except.ok.inj h).symm⟩

/-- C9: move snapshots the source range before mutation; a destination inside
the moved range fails the call; on success the deleted set is untouched (the
moved lines' original numbers are not recorded as deleted) and each moved line
sits, flagged modified, at its re-resolved destination position. -/
theorem C9_move (b : Buffer) (n1 n2 : Nat) (dest : Addr) :
    (dest.isSentinel = false → verifyAddr b dest = .ok () →
      n1 ≤ dest.lineno → dest.lineno ≤ n2 →
      ∃ e, applyMove b n1 n2 dest = .error e) ∧
    (∀ b2, applyMove b n1 n2 dest = .ok b2 →
      b2.deleted = b.deleted ∧
      (1 ≤ n1 → n1 ≤ n2 → n2 ≤ b.recs.length →
        ∀ k r, k < n2 - n1 + 1 → b.recs[n1 - 1 + k]? = some r →
          b2.recs[(if dest.lineno < n1 then dest.lineno
                   else dest.lineno - (n2 - n1 + 1)) + k]? =
              some { r with touched := true } ∧
            ((if dest.lineno < n1 then dest.lineno
              else dest.lineno - (n2 - n1 + 1)) + k + 1) ∈
              (buildResult b2).modified)) := by
  constructor
  · intro hsent hv h1 h2
    refine ⟨"move destination inside moved range", ?_⟩
    rw [applyMove, if_neg (by simp [hsent])]
    simp only [hv]
    rw [if_pos ⟨h1, h2⟩]
  · intro b2 hok
    obtain ⟨hsent, hv, hin, rfl⟩ := applyMove_ok_inv hok
    refine ⟨rfl, ?_⟩
    intro hn1 hn12 hn2 k r hk hr
    obtain ⟨hd1, hd2⟩ := verifyAddr_ok_bounds hsent hv
    set d := if dest.lineno < n1 then dest.lineno else dest.lineno - (n2 - n1 + 1) with hd
    have hrem : (removeRange b.recs n1 n2).length = (n1 - 1) + (b.recs.length - n2) := by
      rw [removeRange, List.length_append, List.length_take, List.length_drop]
      omega
    have hdle : d ≤ (removeRange b.recs n1 n2).length := by
      rw [hrem, hd]
      by_cases hlt : dest.lineno < n1
      · rw [if_pos hlt]
        omega
      · rw [if_neg hlt]
        omega
    have hslice : (sliceRange b.recs n1 n2)[k]? = some r := by
      rw [sliceRange, List.getElem?_take, if_pos hk, List.getElem?_drop]
      exact hr
    have hlenmap :
        k < ((sliceRange b.recs n1 n2).map (fun r => { r with touched := true })).length := by
      rw [List.length_map, sliceRange, List.length_take, List.length_drop]
      omega
    have hget : (insertAt (removeRange b.recs n1 n2) d
        ((sliceRange b.recs n1 n2).map (fun r => { r with touched := true })))[d + k]? =
          some { r with touched := true } := by
      rw [insertAt, List.append_assoc]
      have htk : ((removeRange b.recs n1 n2).take d).length = d := by
        rw [List.length_take]
        omega
      rw [List.getElem?_append_right (by omega), htk,
          show d + k - d = k from by omega,
          List.getElem?_append_left hlenmap, List.getElem?_map, hslice]
      rfl
    refine ⟨hget, ?_⟩
    rw [mem_buildResult_modified]
    exact ⟨d + k, { r with touched := true }, hget, rfl, by omega⟩

/-- Witness for C9 at a concrete four-line buffer: moving lines 1-2 after
line 4 succeeds with the moved lines modified at their new positions, while a
destination inside the range errors. -/
theorem C9_move_witness :
    (∃ e, applyMove (initBuffer "a\nb\nc\nd\n") 1 2 ⟨2, line_hash "b"⟩ = .error e) ∧
    ∃ b2, applyMove (initBuffer "a\nb\nc\nd\n") 1 2 ⟨4, line_hash "d"⟩ = .ok b2 ∧
      b2.deleted = (initBuffer "a\nb\nc\nd\n").deleted ∧
      b2.recs[(if (4 : Nat) < 1 then 4 else 4 - (2 - 1 + 1)) + 0]? =
        some { content := "a", origin := some 1, touched := true } ∧
      ((if (4 : Nat) < 1 then 4 else 4 - (2 - 1 + 1)) + 0 + 1) ∈
        (buildResult b2).modified := by
  constructor
  · exact (C9_move (initBuffer "a\nb\nc\nd\n") 1 2 ⟨2, line_hash "b"⟩).1 rfl rfl
      (by decide) (by decide)
  · refine ⟨_, rfl, ?_⟩
    have h := (C9_move (initBuffer "a\nb\nc\nd\n") 1 2 ⟨4, line_hash "d"⟩).2 _ rfl
    have h2 := h.2 (by decide) (by decide) (by decide) 0
      { content := "a", origin := some 1, touched := false } (by decide) rfl
    exact ⟨h.1, h2.1, h2.2⟩

theorem mapM_option_eq_map {f : α → Option β} {g : α → β} (l : List α)
    (h : ∀ a ∈ l, f a = some (g a)) : l.mapM f = some (l.map g) := by
  induction l with
  | nil => rfl
  | cons a as ih =>
    rw [List.map_cons, List.mapM_cons, h a (by simp),
        ih (fun x hx => h x (by simp [hx]))]
    rfl

theorem pyGet_nonneg (l : List String) (i : Nat) (h : 1 ≤ i) :
    EditResult.pyGet l ((i : Int) - 1) = l[i - 1]? := by
  rw [EditResult.pyGet, if_pos (by omega : (0 : Int) ≤ (i : Int) - 1)]
  congr 1
  omega

/-- C10: `repr` joins `hashes[i-1]  lines[i-1]` exactly for the entries `i` of
`modified` with `i-1` below the length of `hashes`, in order; it raises no
IndexError even when `modified` holds an index past the end of `hashes`, and an
empty `modified` gives the empty string. -/
theorem C10_repr (r : EdResult) (hmod : ∀ i ∈ r.modified, 1 ≤ i)
    (hlen : r.lines.length = r.hashes.length) :
    EditResult.reprFn r =
      some (joinNL ((r.modified.filter (fun i => i - 1 < r.hashes.length)).map
        (fun i => r.hashes.getD (i - 1) "" ++ "  " ++ r.lines.getD (i - 1) ""))) ∧
    (r.modified = [] → EditResult.reprFn r = some "") := by
  constructor
  · rw [EditResult.reprFn]
    have hfilter : r.modified.filter
          (fun (i : Nat) => decide ((i : Int) - 1 < (r.hashes.length : Int))) =
        r.modified.filter (fun (i : Nat) => decide (i - 1 < r.hashes.length)) := by
      refine List.filter_congr ?_
      intro i hi
      have h1 := hmod i hi
      simp only [decide_eq_decide]
      omega
    have hmemf : ∀ i ∈ r.modified.filter (fun (i : Nat) => decide (i - 1 < r.hashes.length)),
        (EditResult.pyGet r.hashes ((i : Int) - 1)).bind (fun h =>
          (EditResult.pyGet r.lines ((i : Int) - 1)).map (fun l => h ++ "  " ++ l)) =
        some (r.hashes.getD (i - 1) "" ++ "  " ++ r.lines.getD (i - 1) "") := by
      intro i hi
      rw [List.mem_filter] at hi
      obtain ⟨him, hcond⟩ := hi
      have h1 : 1 ≤ i := hmod i him
      have hlt : i - 1 < r.hashes.length := by simpa using hcond
      have hltl : i - 1 < r.lines.length := by omega
      rw [pyGet_nonneg _ _ h1, pyGet_nonneg _ _ h1,
          List.getElem?_eq_getElem hlt, List.getElem?_eq_getElem hltl]
      simp [List.getD_eq_getElem?_getD, List.getElem?_eq_getElem, hlt, hltl]
    rw [hfilter, mapM_option_eq_map _ hmemf]
    rfl
  · intro he
    rw [EditResult.reprFn, he]
    rfl

/-- Witness for C10 at a result whose modified set holds an in-range and an
out-of-range entry. -/
theorem C10_repr_witness :
    EditResult.reprFn (EdResult.mk ["baz", "bar"] ["1|aaaa|", "2|bbbb|"] [1, 5] []) =
      some (joinNL ((([1, 5] : List Nat).filter (fun i => i - 1 < 2)).map
        (fun i => (["1|aaaa|", "2|bbbb|"] : List String).getD (i - 1) "" ++ "  " ++
          (["baz", "bar"] : List String).getD (i - 1) ""))) ∧
    (([1, 5] : List Nat) = [] →
      EditResult.reprFn (EdResult.mk ["baz", "bar"] ["1|aaaa|", "2|bbbb|"] [1, 5] []) =
        some "") :=
  C10_repr (EdResult.mk ["baz", "bar"] ["1|aaaa|", "2|bbbb|"] [1, 5] [])
    (by decide) rfl

end Exhash



